import Mathlib

/-!
Verification of the snapshot persistence adapter of the hocuspocus-supabase
server.  The definitions below are a shallow embedding of the `fetch` and
`store` hooks of the `Database` extension (src/unnamed/part_000, the variant
at lines 328-551, which the specification's Decoder/Adapter describe), plus
the byte-level codecs those hooks call through Node's `Buffer`:

  * `Buffer.toString("base64")` / `Buffer.from(s, "base64")` - base64 with
    padding on encode; Node's decoder is lenient, ignoring characters
    outside the alphabet (including `=`) and dropping a trailing partial
    group;
  * `Buffer.from(s, "hex")` - lenient hex decode, truncating at the first
    invalid pair (per the Node Buffer documentation, "the data is truncated
    at the first invalid character" and an odd trailing digit is dropped);
  * `Buffer.toString("utf8")` - WHATWG-style UTF-8 decoding with U+FFFD
    replacement for invalid sequences.

JavaScript strings are modelled as `List Char`; every string any theorem
evaluates is ASCII, where a Lean `Char` and a UTF-16 code unit coincide.
Bytes are `Nat`s; `Uint8Array` element writes wrap modulo 256, written
explicitly where the source stores into a `Uint8Array`.
-/

namespace HocuspocusSupabase

/-- The base64 alphabet used by `btoa` / `Buffer.toString("base64")`:
uppercase letters, lowercase letters, digits, `+`, `/`. -/
def b64AlphabetChars : List Char :=
  (List.range 26).map (fun n => Char.ofNat (65 + n))
    ++ (List.range 26).map (fun n => Char.ofNat (97 + n))
    ++ (List.range 10).map (fun n => Char.ofNat (48 + n))
    ++ ['+', '/']

/-- Sextet value to base64 character. -/
def b64Char (n : Nat) : Char := b64AlphabetChars.getD n 'A'

/-- Base64 character to sextet value; `none` for characters outside the
alphabet (Node's decoder skips those, `=` included). -/
def b64Val (c : Char) : Option Nat :=
  let i := b64AlphabetChars.indexOf c
  if i < 64 then some i else none

/-- Membership in the base64 alphabet, the character class of the source's
regular expression test without its optional `=` padding. -/
def isB64Char (c : Char) : Bool := b64AlphabetChars.contains c

/-- Encode a full 3-byte group into 4 base64 characters. -/
def enc3 (a b c : Nat) : List Char :=
  [b64Char (a / 4), b64Char (a % 4 * 16 + b / 16),
   b64Char (b % 16 * 4 + c / 64), b64Char (c % 64)]

/-- Encode a trailing 2-byte group (one `=` of padding). -/
def enc2 (a b : Nat) : List Char :=
  [b64Char (a / 4), b64Char (a % 4 * 16 + b / 16), b64Char (b % 16 * 4), '=']

/-- Encode a trailing 1-byte group (two `=` of padding). -/
def enc1 (a : Nat) : List Char :=
  [b64Char (a / 4), b64Char (a % 4 * 16), '=', '=']

/-- `Buffer.from(state).toString("base64")`: padded base64 of a byte
sequence, as produced by the store path. -/
def base64Encode : List Nat → List Char
  | a :: b :: c :: rest => enc3 a b c ++ base64Encode rest
  | [a, b] => enc2 a b
  | [a] => enc1 a
  | [] => []

/-- Reassemble bytes from a sextet stream: 4 sextets give 3 bytes, a
trailing group of 3 gives 2 bytes, of 2 gives 1 byte, of 1 gives none. -/
def decodeSextets : List Nat → List Nat
  | a :: b :: c :: d :: rest =>
      (a * 4 + b / 16) :: (b % 16 * 16 + c / 4) :: (c % 4 * 64 + d) :: decodeSextets rest
  | [a, b, c] => [a * 4 + b / 16, b % 16 * 16 + c / 4]
  | [a, b] => [a * 4 + b / 16]
  | _ => []

/-- `Buffer.from(s, "base64")`: Node's lenient base64 decoder — characters
outside the alphabet are ignored and the surviving sextets reassembled. -/
def base64DecodeNode (s : List Char) : List Nat :=
  decodeSextets (s.filterMap b64Val)

/-- Value of one hex digit (Node accepts both cases); `none` otherwise. -/
def hexDigitVal (c : Char) : Option Nat :=
  if '0' ≤ c ∧ c ≤ '9' then some (c.toNat - 48)
  else if 'a' ≤ c ∧ c ≤ 'f' then some (c.toNat - 87)
  else if 'A' ≤ c ∧ c ≤ 'F' then some (c.toNat - 55)
  else none

/-- `Buffer.from(s, "hex")`: pairs of hex digits become bytes; decoding is
truncated at the first invalid pair, and an odd trailing digit is dropped. -/
def hexDecodeNode : List Char → List Nat
  | c1 :: c2 :: rest =>
      match hexDigitVal c1, hexDigitVal c2 with
      | some h, some l => (h * 16 + l) :: hexDecodeNode rest
      | _, _ => []
  | _ => []

/-- Lowercase hex digit for a value below 16. -/
def hexDig (n : Nat) : Char :=
  if n < 10 then Char.ofNat (48 + n)
  else if n < 16 then Char.ofNat (87 + n)
  else Char.ofNat 48

/-- `Buffer.toString("hex")`: two lowercase hex digits per byte (used only
to build the legacy prefixed-hex column values the decoder must accept). -/
def hexEncode : List Nat → List Char
  | [] => []
  | b :: rest => hexDig (b / 16) :: hexDig (b % 16) :: hexEncode rest

/-- The U+FFFD replacement character emitted for invalid UTF-8. -/
def replChar : Char := Char.ofNat 0xFFFD

/-- A UTF-8 continuation byte. -/
def contOK (x : Nat) : Bool := 0x80 ≤ x && x < 0xC0

/-- `Buffer.toString("utf8")`: UTF-8 decoding with replacement characters
for invalid sequences (on an invalid or truncated sequence one replacement
is emitted for the leading byte and decoding resynchronizes at the next
byte, an approximation of Node's replacement placement; every theorem
below evaluates this function on ASCII bytes only, where the first branch
is the whole story).  A 4-byte sequence is returned as its single scalar
value, where a JavaScript string would hold a surrogate pair; no theorem
touches that case. -/
def utf8Decode : List Nat → List Char
  | [] => []
  | b :: rest =>
    let b2 := rest.getD 0 0
    let b3 := rest.getD 1 0
    let b4 := rest.getD 2 0
    if b < 0x80 then Char.ofNat b :: utf8Decode rest
    else if b < 0xC2 then replChar :: utf8Decode rest
    else if b < 0xE0 then
      if 1 ≤ rest.length && contOK b2 then
        Char.ofNat ((b - 0xC0) * 64 + (b2 - 0x80)) :: utf8Decode (rest.drop 1)
      else replChar :: utf8Decode rest
    else if b < 0xF0 then
      if (2 ≤ rest.length && (contOK b2 && contOK b3))
          && (!(b == 0xE0 && b2 < 0xA0) && !(b == 0xED && 0xA0 ≤ b2)) then
        Char.ofNat ((b - 0xE0) * 4096 + (b2 - 0x80) * 64 + (b3 - 0x80))
          :: utf8Decode (rest.drop 2)
      else replChar :: utf8Decode rest
    else if b ≤ 0xF4 then
      if (3 ≤ rest.length && (contOK b2 && (contOK b3 && contOK b4)))
          && (!(b == 0xF0 && b2 < 0x90) && !(b == 0xF4 && 0x90 ≤ b2)) then
        Char.ofNat ((b - 0xF0) * 262144 + (b2 - 0x80) * 4096
            + (b3 - 0x80) * 64 + (b4 - 0x80)) :: utf8Decode (rest.drop 3)
      else replChar :: utf8Decode rest
    else replChar :: utf8Decode rest
termination_by l => l.length
decreasing_by all_goals simp [List.length_drop] <;> omega

/-- `data.ydoc_state.startsWith("\\x")`: the two-character binary-escape
marker of the store client's hex convention. -/
def startsWithBackslashX (s : List Char) : Bool :=
  match s with
  | c1 :: c2 :: _ => c1 == '\\' && c2 == 'x'
  | _ => false

/-- `data.ydoc_state.replace(/^\\x/, "")`: drop one leading escape marker. -/
def stripBackslashX (s : List Char) : List Char :=
  match s with
  | c1 :: c2 :: rest => if c1 == '\\' && c2 == 'x' then rest else s
  | _ => s

/-- The source's base64 shape test `/^[A-Za-z0-9+/]*={0,2}$/`: a run of
alphabet characters followed by at most two `=`. -/
def isBase64 : List Char → Bool
  | [] => true
  | c :: rest =>
      if isB64Char c then isBase64 rest
      else c == '=' && (rest.isEmpty || rest == ['='])

/-- The column value as surfaced by the store client: a raw byte buffer, a
string, or a value of unexpected type (whose JavaScript truthiness is the
Boolean carried by the constructor). -/
inductive ColumnValue
  | buf (b : List Nat)
  | str (s : List Char)
  | other (truthiness : Bool)
deriving DecidableEq

/-- JavaScript truthiness of a column value, as tested by the source's
`if (data && data.ydoc_state)`: objects (buffers) are truthy even when
empty, a string is truthy iff nonempty. -/
def truthy : ColumnValue → Bool
  | .buf _ => true
  | .str s => !s.isEmpty
  | .other t => t

/-- The decode block of `fetch` (src/unnamed/part_000 lines 373-483): a
buffer is taken as-is; a string starting with the escape marker is
hex-decoded, read as UTF-8 text, and that text base64-decoded; otherwise a
string matching the base64 shape is base64-decoded; any other string falls
back to one byte per character code (`Uint8Array` writes wrap mod 256).  A
value of unexpected type yields `none` (the source returns `null`).  The
Node decoders never throw, so the source's surrounding catch (which would
also return `null`) is unreachable. -/
def decodeColumn : ColumnValue → Option (List Nat)
  | .buf b => some b
  | .str s =>
      if startsWithBackslashX s then
        some (base64DecodeNode (utf8Decode (hexDecodeNode (stripBackslashX s))))
      else if isBase64 s then
        some (base64DecodeNode s)
      else
        some (s.map (fun c => c.toNat % 256))
  | .other _ => none

/-- Result of the `.single()` query: either a row (whose `ydoc_state`
column may be null) or an error code. -/
inductive QueryResult
  | row (v : Option ColumnValue)
  | err (code : String)
deriving DecidableEq

/-- What the collaboration engine receives from a fetch: bytes, null, or a
propagated exception carrying the cause. -/
inductive FetchOutcome
  | Found (b : List Nat)
  | NotFound
  | Failed (cause : String)
deriving DecidableEq

/-- Body of `fetch`'s outer `try` (lines 331-489): the not-found code
`PGRST116` returns null; any other query error is thrown; a missing or
falsy column returns null; a present column is decoded, `null` from the
decoder becoming null from fetch.  `Except.error` is a thrown exception. -/
def fetchInner : QueryResult → Except String FetchOutcome
  | .err c => if c = "PGRST116" then .ok .NotFound else .error c
  | .row none => .ok .NotFound
  | .row (some v) =>
      if truthy v then
        match decodeColumn v with
        | some b => .ok (.Found b)
        | none => .ok .NotFound
      else .ok .NotFound

/-- `fetch` as the collaboration engine sees it: the outer catch (lines
490-497) converts any exception thrown inside the body into a null
return, so no `Failed` outcome ever escapes. -/
def fetch (q : QueryResult) : FetchOutcome :=
  match fetchInner q with
  | .ok o => o
  | .error _ => .NotFound

/-- Body of `store`'s `try` (lines 505-543): a reported upsert error is
thrown, otherwise the call returns normally. -/
def storeInner (upsertError : Option String) : Except String Unit :=
  match upsertError with
  | some e => .error e
  | none => .ok ()

/-- `store` as the caller sees it: the catch (lines 544-550) logs and
rethrows, so an upsert error always propagates. -/
def storeRun (upsertError : Option String) : Except String Unit :=
  match storeInner upsertError with
  | .ok x => .ok x
  | .error e => .error e

/-- The backing table: rows of `(ticket_id, ydoc_state)` (the `updated_at`
column is irrelevant to every claim and omitted). -/
abbrev Table := List (String × List Char)

/-- Whether a row with the given key exists. -/
def containsKey : Table → String → Bool
  | [], _ => false
  | p :: rest, id => p.1 == id || containsKey rest id

/-- Replace the value of every row whose key matches. -/
def replaceKey : Table → String → List Char → Table
  | [], _, _ => []
  | p :: rest, id, v =>
      (if p.1 == id then (id, v) else p) :: replaceKey rest id v

/-- Modelled from the spec: the backing store's upsert with
`onConflict: "ticket_id"` (a Supabase client primitive, external to the
repository) replaces the conflicting row's value in place and otherwise
appends a fresh row — "an insert that becomes an update when a row with
the same key already exists", "conflict resolution that replaces the
existing row". -/
def upsert (t : Table) (id : String) (v : List Char) : Table :=
  if containsKey t id then replaceKey t id v else t ++ [(id, v)]

/-- Number of rows carrying the given key. -/
def countKey : Table → String → Nat
  | [], _ => 0
  | p :: rest, id => (if p.1 == id then 1 else 0) + countKey rest id

/-- First row with a matching key, as the `.single()` query selects. -/
def firstRow : Table → String → Option (String × List Char)
  | [], _ => none
  | p :: rest, id => if p.1 == id then some p else firstRow rest id

/-- The store path's write: upsert the base64 encoding of the bytes under
the document identifier (lines 508-531). -/
def storeToTable (t : Table) (id : String) (state : List Nat) : Table :=
  upsert t id (base64Encode state)

/-- Modelled from the spec: the `.single()` query (external Supabase
client) returns the stored text column of the unique matching row
unchanged, and reports the store-defined not-found code `PGRST116` when no
row matches. -/
def queryTable (t : Table) (id : String) : QueryResult :=
  match firstRow t id with
  | some p => .row (some (.str p.2))
  | none => .err "PGRST116"

/-- End-to-end retrieval: run `fetch` on the query against the table. -/
def fetchFromTable (t : Table) (id : String) : FetchOutcome :=
  fetch (queryTable t id)

/-- Table states reachable from the empty table by upserts — the store
states the adapter can ever produce. -/
inductive Reachable : Table → Prop
  | nil : Reachable []
  | step {t : Table} (id : String) (v : List Char) :
      Reachable t → Reachable (upsert t id v)

/-! ### Character-level facts, by finite check -/

theorem b64Val_b64Char : ∀ n, n < 64 → b64Val (b64Char n) = some n := by decide

theorem isB64Char_b64Char : ∀ n, n < 64 → isB64Char (b64Char n) = true := by decide

theorem b64Val_pad : b64Val '=' = none := by decide

theorem isB64Char_pad : isB64Char '=' = false := by decide

theorem b64Char_ne_backslash : ∀ n, n < 64 → (b64Char n == '\\') = false := by decide

theorem b64Alphabet_ascii :
    ∀ c ∈ b64AlphabetChars, c.toNat < 128 ∧ Char.ofNat c.toNat = c := by decide

theorem hexDigitVal_hexDig : ∀ n, n < 16 → hexDigitVal (hexDig n) = some n := by decide

/-! ### Base64 round-trip -/

theorem filterMap_enc3 (a b c : Nat) (ha : a < 256) (hb : b < 256) (hc : c < 256) :
    (enc3 a b c).filterMap b64Val
      = [a / 4, a % 4 * 16 + b / 16, b % 16 * 4 + c / 64, c % 64] := by
  have h1 := b64Val_b64Char (a / 4) (by omega)
  have h2 := b64Val_b64Char (a % 4 * 16 + b / 16) (by omega)
  have h3 := b64Val_b64Char (b % 16 * 4 + c / 64) (by omega)
  have h4 := b64Val_b64Char (c % 64) (by omega)
  simp [enc3, List.filterMap_cons, h1, h2, h3, h4]

theorem filterMap_enc2 (a b : Nat) (ha : a < 256) (hb : b < 256) :
    (enc2 a b).filterMap b64Val = [a / 4, a % 4 * 16 + b / 16, b % 16 * 4] := by
  have h1 := b64Val_b64Char (a / 4) (by omega)
  have h2 := b64Val_b64Char (a % 4 * 16 + b / 16) (by omega)
  have h3 := b64Val_b64Char (b % 16 * 4) (by omega)
  simp [enc2, List.filterMap_cons, h1, h2, h3, b64Val_pad]

theorem filterMap_enc1 (a : Nat) (ha : a < 256) :
    (enc1 a).filterMap b64Val = [a / 4, a % 4 * 16] := by
  have h1 := b64Val_b64Char (a / 4) (by omega)
  have h2 := b64Val_b64Char (a % 4 * 16) (by omega)
  simp [enc1, List.filterMap_cons, h1, h2, b64Val_pad]

/-- Decoding inverts encoding: `Buffer.from(buf.toString("base64"), "base64")`
restores the bytes of `buf`, for every byte sequence. -/
theorem base64_roundtrip :
    ∀ l : List Nat, (∀ x ∈ l, x < 256) → base64DecodeNode (base64Encode l) = l := by
  intro l
  induction l using base64Encode.induct with
  | case1 a b c rest ih =>
    intro h
    have ha : a < 256 := h a (by simp)
    have hb : b < 256 := h b (by simp)
    have hc : c < 256 := h c (by simp)
    have hrest : ∀ x ∈ rest, x < 256 := fun x hx => h x (by simp [hx])
    have htail : decodeSextets ((base64Encode rest).filterMap b64Val) = rest := by
      simpa [base64DecodeNode] using ih hrest
    simp only [base64Encode, base64DecodeNode, List.filterMap_append,
      filterMap_enc3 a b c ha hb hc, List.cons_append, List.nil_append,
      decodeSextets, htail, List.cons.injEq]
    refine ⟨by omega, by omega, by omega, trivial⟩
  | case2 a b =>
    intro h
    have ha : a < 256 := h a (by simp)
    have hb : b < 256 := h b (by simp)
    simp only [base64Encode, base64DecodeNode, filterMap_enc2 a b ha hb,
      decodeSextets, List.cons.injEq]
    refine ⟨by omega, by omega, trivial⟩
  | case3 a =>
    intro h
    have ha : a < 256 := h a (by simp)
    simp only [base64Encode, base64DecodeNode, filterMap_enc1 a ha, decodeSextets,
      List.cons.injEq]
    refine ⟨by omega, trivial⟩
  | case4 => intro _; rfl

/-! ### Shape of the encoder's output: routed to the base64 branch -/

theorem isBase64_append_of_b64 (xs ys : List Char)
    (h : ∀ c ∈ xs, isB64Char c = true) : isBase64 (xs ++ ys) = isBase64 ys := by
  induction xs with
  | nil => rfl
  | cons c rest ih =>
    have hc : isB64Char c = true := h c (by simp)
    simp only [List.cons_append, isBase64, hc, if_true]
    exact ih (fun x hx => h x (by simp [hx]))

/-- The encoder's output matches the source's base64 regular expression. -/
theorem isBase64_base64Encode :
    ∀ l : List Nat, (∀ x ∈ l, x < 256) → isBase64 (base64Encode l) = true := by
  intro l
  induction l using base64Encode.induct with
  | case1 a b c rest ih =>
    intro h
    have ha : a < 256 := h a (by simp)
    have hb : b < 256 := h b (by simp)
    have hc : c < 256 := h c (by simp)
    have hrest : ∀ x ∈ rest, x < 256 := fun x hx => h x (by simp [hx])
    have hmem : ∀ x ∈ enc3 a b c, isB64Char x = true := by
      intro x hx
      simp only [enc3, List.mem_cons, List.not_mem_nil, or_false] at hx
      rcases hx with h1 | h1 | h1 | h1 <;> subst h1 <;>
        exact isB64Char_b64Char _ (by omega)
    rw [base64Encode, isBase64_append_of_b64 _ _ hmem]
    exact ih hrest
  | case2 a b =>
    intro h
    have ha : a < 256 := h a (by simp)
    have hb : b < 256 := h b (by simp)
    have h1 := isB64Char_b64Char (a / 4) (by omega)
    have h2 := isB64Char_b64Char (a % 4 * 16 + b / 16) (by omega)
    have h3 := isB64Char_b64Char (b % 16 * 4) (by omega)
    simp [base64Encode, enc2, isBase64, h1, h2, h3, isB64Char_pad]
  | case3 a =>
    intro h
    have ha : a < 256 := h a (by simp)
    have h1 := isB64Char_b64Char (a / 4) (by omega)
    have h2 := isB64Char_b64Char (a % 4 * 16) (by omega)
    simp [base64Encode, enc1, isBase64, h1, h2, isB64Char_pad]
  | case4 => intro _; rfl

/-- The encoder's output never carries the binary-escape marker. -/
theorem startsWith_base64Encode :
    ∀ l : List Nat, (∀ x ∈ l, x < 256) →
      startsWithBackslashX (base64Encode l) = false := by
  intro l h
  match l, h with
  | [], _ => rfl
  | [a], h =>
    have ha : a < 256 := h a (by simp)
    simp [base64Encode, enc1, startsWithBackslashX,
      b64Char_ne_backslash (a / 4) (by omega)]
  | [a, b], h =>
    have ha : a < 256 := h a (by simp)
    simp [base64Encode, enc2, startsWithBackslashX,
      b64Char_ne_backslash (a / 4) (by omega)]
  | a :: b :: c :: rest, h =>
    have ha : a < 256 := h a (by simp)
    simp [base64Encode, enc3, startsWithBackslashX,
      b64Char_ne_backslash (a / 4) (by omega)]

/-- The encoder maps the empty snapshot to the empty string. -/
theorem base64Encode_nil : base64Encode [] = [] := rfl

/-- The encoder's output is nonempty whenever the input is. -/
theorem base64Encode_ne_nil (l : List Nat) (h : l ≠ []) :
    base64Encode l ≠ [] := by
  match l, h with
  | [a], _ => simp [base64Encode, enc1]
  | [a, b], _ => simp [base64Encode, enc2]
  | a :: b :: c :: rest, _ => simp [base64Encode, enc3]

/-! ### Hex and UTF-8 lemmas -/

/-- Hex decoding inverts hex encoding on byte sequences. -/
theorem hex_roundtrip :
    ∀ l : List Nat, (∀ x ∈ l, x < 256) → hexDecodeNode (hexEncode l) = l := by
  intro l
  induction l with
  | nil => intro _; rfl
  | cons b rest ih =>
    intro h
    have hb : b < 256 := h b (by simp)
    have h1 := hexDigitVal_hexDig (b / 16) (by omega)
    have h2 := hexDigitVal_hexDig (b % 16) (by omega)
    have hrest : ∀ x ∈ rest, x < 256 := fun x hx => h x (by simp [hx])
    simp only [hexEncode, hexDecodeNode, h1, h2, ih hrest, List.cons.injEq]
    exact ⟨by omega, trivial⟩

/-- On ASCII bytes, UTF-8 decoding is one character per byte. -/
theorem utf8Decode_ascii :
    ∀ l : List Nat, (∀ x ∈ l, x < 128) → utf8Decode l = l.map Char.ofNat := by
  intro l
  induction l with
  | nil => intro _; rw [utf8Decode]; rfl
  | cons b rest ih =>
    intro h
    have hb : b < 128 := h b (by simp)
    have hrest : ∀ x ∈ rest, x < 128 := fun x hx => h x (by simp [hx])
    rw [utf8Decode]
    simp only [if_pos hb, ih hrest, List.map_cons]

/-- Recover characters from their code points when each round-trips. -/
theorem map_ofNat_toNat (l : List Char)
    (h : ∀ c ∈ l, Char.ofNat c.toNat = c) :
    (l.map Char.toNat).map Char.ofNat = l := by
  induction l with
  | nil => rfl
  | cons c rest ih =>
    simp only [List.map_cons, h c (by simp), List.cons.injEq]
    exact ⟨trivial, ih (fun x hx => h x (by simp [hx]))⟩

/-- Every character of the encoder's output is in the alphabet or `=`. -/
theorem mem_base64Encode :
    ∀ l : List Nat, (∀ x ∈ l, x < 256) →
      ∀ c ∈ base64Encode l, isB64Char c = true ∨ c = '=' := by
  intro l
  induction l using base64Encode.induct with
  | case1 a b c rest ih =>
    intro h x hx
    have ha : a < 256 := h a (by simp)
    have hb : b < 256 := h b (by simp)
    have hc : c < 256 := h c (by simp)
    have hrest : ∀ y ∈ rest, y < 256 := fun y hy => h y (by simp [hy])
    rw [base64Encode, List.mem_append] at hx
    rcases hx with h1 | h1
    · simp only [enc3, List.mem_cons, List.not_mem_nil, or_false] at h1
      rcases h1 with h1 | h1 | h1 | h1 <;> subst h1 <;>
        exact Or.inl (isB64Char_b64Char _ (by omega))
    · exact ih hrest x h1
  | case2 a b =>
    intro h x hx
    have ha : a < 256 := h a (by simp)
    have hb : b < 256 := h b (by simp)
    simp only [base64Encode, enc2, List.mem_cons, List.not_mem_nil, or_false] at hx
    rcases hx with h1 | h1 | h1 | h1 <;> subst h1
    · exact Or.inl (isB64Char_b64Char _ (by omega))
    · exact Or.inl (isB64Char_b64Char _ (by omega))
    · exact Or.inl (isB64Char_b64Char _ (by omega))
    · exact Or.inr rfl
  | case3 a =>
    intro h x hx
    have ha : a < 256 := h a (by simp)
    simp only [base64Encode, enc1, List.mem_cons, List.not_mem_nil, or_false] at hx
    rcases hx with h1 | h1 | h1 | h1 <;> subst h1
    · exact Or.inl (isB64Char_b64Char _ (by omega))
    · exact Or.inl (isB64Char_b64Char _ (by omega))
    · exact Or.inr rfl
    · exact Or.inr rfl
  | case4 => intro _ x hx; cases hx

/-- Characters of the encoder's output are ASCII and survive a
code-point round-trip. -/
theorem base64Encode_ascii (l : List Nat) (h : ∀ x ∈ l, x < 256) :
    ∀ c ∈ base64Encode l, c.toNat < 128 ∧ Char.ofNat c.toNat = c := by
  intro c hc
  rcases mem_base64Encode l h c hc with h1 | h1
  · have hmem : c ∈ b64AlphabetChars := by
      have := List.elem_iff.mp h1
      simpa using this
    exact b64Alphabet_ascii c hmem
  · subst h1; exact ⟨by decide, by decide⟩
/-! ### Table-level lemmas about the replace-on-conflict upsert -/

theorem firstRow_replaceKey (t : Table) (id : String) (v : List Char)
    (h : containsKey t id = true) :
    firstRow (replaceKey t id v) id = some (id, v) := by
  induction t with
  | nil => simp [containsKey] at h
  | cons p rest ih =>
    by_cases hp : (p.1 == id) = true
    · simp [replaceKey, firstRow, hp]
    · have hrest : containsKey rest id = true := by
        simpa [containsKey, hp] using h
      simp only [replaceKey, hp, if_false, firstRow]
      rw [if_neg (by simp [hp])]
      exact ih hrest

theorem firstRow_append_single (t : Table) (id : String) (v : List Char)
    (h : containsKey t id = false) :
    firstRow (t ++ [(id, v)]) id = some (id, v) := by
  induction t with
  | nil => simp [firstRow]
  | cons p rest ih =>
    have hp : (p.1 == id) = false := by
      by_contra hc
      simp only [Bool.not_eq_false] at hc
      simp [containsKey, hc] at h
    have hrest : containsKey rest id = false := by
      simpa [containsKey, hp] using h
    simp only [List.cons_append, firstRow]
    rw [if_neg (by simp [hp])]
    exact ih hrest

/-- After an upsert, the query for the upserted key finds exactly the new
row. -/
theorem firstRow_upsert (t : Table) (id : String) (v : List Char) :
    firstRow (upsert t id v) id = some (id, v) := by
  rw [upsert]
  by_cases h : containsKey t id = true
  · rw [if_pos h]; exact firstRow_replaceKey t id v h
  · have h1 : containsKey t id = false := by simpa using h
    rw [if_neg (by simp [h1])]; exact firstRow_append_single t id v h1

/-- Querying the table after an upsert returns the upserted column text. -/
theorem queryTable_upsert (t : Table) (id : String) (v : List Char) :
    queryTable (upsert t id v) id = QueryResult.row (some (ColumnValue.str v)) := by
  rw [queryTable, firstRow_upsert]

theorem containsKey_replaceKey (t : Table) (id : String) (v : List Char) :
    containsKey (replaceKey t id v) id = containsKey t id := by
  induction t with
  | nil => rfl
  | cons p rest ih =>
    by_cases hp : (p.1 == id) = true
    · simp [replaceKey, containsKey, hp]
    · simp [replaceKey, containsKey, hp, ih]

theorem containsKey_append_single (t : Table) (id : String) (v : List Char) :
    containsKey (t ++ [(id, v)]) id = true := by
  induction t with
  | nil => simp [containsKey]
  | cons p rest ih => simp [containsKey, ih]

/-- Whatever table an upsert targets, the result contains the key. -/
theorem containsKey_upsert (t : Table) (id : String) (v : List Char) :
    containsKey (upsert t id v) id = true := by
  rw [upsert]
  by_cases h : containsKey t id = true
  · rw [if_pos h, containsKey_replaceKey]; exact h
  · rw [if_neg (by simpa using h), containsKey_append_single]

theorem countKey_replaceKey (t : Table) (id : String) (v : List Char) :
    countKey (replaceKey t id v) id = countKey t id := by
  induction t with
  | nil => rfl
  | cons p rest ih =>
    by_cases hp : (p.1 == id) = true
    · simp [replaceKey, countKey, hp, ih]
    · simp [replaceKey, countKey, hp, ih]

theorem countKey_append_single (t : Table) (id : String) (v : List Char) :
    countKey (t ++ [(id, v)]) id = countKey t id + 1 := by
  induction t with
  | nil => simp [countKey]
  | cons p rest ih =>
    simp only [List.cons_append, countKey, List.append_eq] at *
    omega

theorem countKey_append_other (t : Table) (id : String) (v : List Char)
    (i : String) (hne : i ≠ id) :
    countKey (t ++ [(id, v)]) i = countKey t i := by
  have hidi : (id == i) = false := beq_eq_false_iff_ne.mpr hne.symm
  induction t with
  | nil => simp [countKey, hidi]
  | cons p rest ih =>
    simp only [List.cons_append, countKey, List.append_eq] at *
    omega

theorem countKey_replaceKey_other (t : Table) (id : String) (v : List Char)
    (i : String) (hne : i ≠ id) :
    countKey (replaceKey t id v) i = countKey t i := by
  have hidi : (id == i) = false := beq_eq_false_iff_ne.mpr hne.symm
  induction t with
  | nil => rfl
  | cons p rest ih =>
    by_cases hp : (p.1 == id) = true
    · have h1 : p.1 = id := by simpa using hp
      have hpi : (p.1 == i) = false := by rw [h1]; exact hidi
      simp [replaceKey, countKey, hp, hpi, hidi, ih]
    · simp [replaceKey, countKey, hp, ih]

theorem countKey_eq_zero (t : Table) (id : String)
    (h : containsKey t id = false) : countKey t id = 0 := by
  induction t with
  | nil => rfl
  | cons p rest ih =>
    have hp : (p.1 == id) = false := by
      by_contra hc
      simp only [Bool.not_eq_false] at hc
      simp [containsKey, hc] at h
    have hrest : containsKey rest id = false := by
      simpa [containsKey, hp] using h
    simp [countKey, hp, ih hrest]

theorem countKey_pos (t : Table) (id : String)
    (h : containsKey t id = true) : 1 ≤ countKey t id := by
  induction t with
  | nil => simp [containsKey] at h
  | cons p rest ih =>
    by_cases hp : (p.1 == id) = true
    · simp [countKey, hp]
    · have hrest : containsKey rest id = true := by
        simpa [containsKey, hp] using h
      simpa [countKey, hp] using ih hrest

/-- An upsert leaves exactly one row for its key whenever the table held
at most one before. -/
theorem countKey_upsert_self (t : Table) (id : String) (v : List Char)
    (h : countKey t id ≤ 1) : countKey (upsert t id v) id = 1 := by
  rw [upsert]
  by_cases hc : containsKey t id = true
  · rw [if_pos hc, countKey_replaceKey]
    have := countKey_pos t id hc
    omega
  · have hc1 : containsKey t id = false := by simpa using hc
    rw [if_neg (by simp [hc1]), countKey_append_single, countKey_eq_zero t id hc1]

/-- An upsert never changes the row count of a different key. -/
theorem countKey_upsert_other (t : Table) (id : String) (v : List Char)
    (i : String) (hne : i ≠ id) :
    countKey (upsert t id v) i = countKey t i := by
  rw [upsert]
  by_cases hc : containsKey t id = true
  · rw [if_pos hc]
    exact countKey_replaceKey_other t id v i hne
  · rw [if_neg hc]
    exact countKey_append_other t id v i hne

/-- Reachable tables never hold two rows for one key. -/
theorem reachable_at_most_one (t : Table) (ht : Reachable t) :
    ∀ i, countKey t i ≤ 1 := by
  induction ht with
  | nil => intro i; simp [countKey]
  | step id v _ ih =>
    intro i
    by_cases hi : i = id
    · subst hi
      rw [countKey_upsert_self _ _ _ (ih i)]
    · rw [countKey_upsert_other _ _ _ _ hi]
      exact ih i

theorem replaceKey_replaceKey (t : Table) (id : String) (v : List Char) :
    replaceKey (replaceKey t id v) id v = replaceKey t id v := by
  induction t with
  | nil => rfl
  | cons p rest ih =>
    by_cases hp : (p.1 == id) = true
    · simp [replaceKey, hp, ih]
    · simp [replaceKey, hp, ih]

theorem replaceKey_of_not_contains (t : Table) (id : String) (v : List Char)
    (h : containsKey t id = false) : replaceKey t id v = t := by
  induction t with
  | nil => rfl
  | cons p rest ih =>
    have hp : (p.1 == id) = false := by
      by_contra hc
      simp only [Bool.not_eq_false] at hc
      simp [containsKey, hc] at h
    have hrest : containsKey rest id = false := by
      simpa [containsKey, hp] using h
    simp [replaceKey, hp, ih hrest]

theorem replaceKey_append (t u : Table) (id : String) (v : List Char) :
    replaceKey (t ++ u) id v = replaceKey t id v ++ replaceKey u id v := by
  induction t with
  | nil => rfl
  | cons p rest ih => simp [replaceKey, ih]

/-- Upserting the same key and value twice equals doing it once. -/
theorem upsert_idem (t : Table) (id : String) (v : List Char) :
    upsert (upsert t id v) id v = upsert t id v := by
  conv_lhs => rw [upsert]
  rw [if_pos (containsKey_upsert t id v), upsert]
  by_cases hc : containsKey t id = true
  · rw [if_pos hc, replaceKey_replaceKey]
  · have hc1 : containsKey t id = false := by simpa using hc
    rw [if_neg (by simp [hc1]), replaceKey_append,
      replaceKey_of_not_contains t id v hc1]
    simp [replaceKey]

/-! ### Fetch-level helper lemmas -/

theorem fetch_row_found (v : ColumnValue) (hv : truthy v = true)
    (b : List Nat) (hd : decodeColumn v = some b) :
    fetch (QueryResult.row (some v)) = FetchOutcome.Found b := by
  simp [fetch, fetchInner, hv, hd]

theorem fetch_row_absent (v : ColumnValue) (hv : truthy v = true)
    (hd : decodeColumn v = none) :
    fetch (QueryResult.row (some v)) = FetchOutcome.NotFound := by
  simp [fetch, fetchInner, hv, hd]

theorem fetch_row_falsy (v : ColumnValue) (hv : truthy v = false) :
    fetch (QueryResult.row (some v)) = FetchOutcome.NotFound := by
  simp [fetch, fetchInner, hv]

/-- The decoder inverts the store path's encoder. -/
theorem decodeColumn_base64Encode (b : List Nat) (h : ∀ x ∈ b, x < 256) :
    decodeColumn (ColumnValue.str (base64Encode b)) = some b := by
  simp only [decodeColumn, startsWith_base64Encode b h, Bool.false_eq_true,
    if_false, isBase64_base64Encode b h, if_true, base64_roundtrip b h]

/-- A nonempty snapshot's encoding is a truthy column value. -/
theorem truthy_base64Encode (b : List Nat) (hne : b ≠ []) :
    truthy (ColumnValue.str (base64Encode b)) = true := by
  simp only [truthy, Bool.not_eq_eq_eq_not, Bool.not_true, List.isEmpty_eq_false]
  exact base64Encode_ne_nil b hne

/-! ### The claims -/

/-- Claim C1: for every byte sequence `b` (the empty sequence and all byte
values included), the stored column value produced by the store path's
encoder, `base64Encode b`, is routed to the Decoder's base64 branch — it
never starts with the binary-escape marker and always matches the base64
shape test — and decoding it yields exactly `b`. -/
theorem claimC1 (b : List Nat) (h : ∀ x ∈ b, x < 256) :
    startsWithBackslashX (base64Encode b) = false ∧
    isBase64 (base64Encode b) = true ∧
    decodeColumn (ColumnValue.str (base64Encode b)) = some b :=
  ⟨startsWith_base64Encode b h, isBase64_base64Encode b h,
    decodeColumn_base64Encode b h⟩

theorem claimC1_witness :
    startsWithBackslashX (base64Encode [0, 1, 2, 253, 254, 255]) = false ∧
    isBase64 (base64Encode [0, 1, 2, 253, 254, 255]) = true ∧
    decodeColumn (ColumnValue.str (base64Encode [0, 1, 2, 253, 254, 255]))
      = some [0, 1, 2, 253, 254, 255] :=
  claimC1 [0, 1, 2, 253, 254, 255] (by decide)

/-- Claim C2 counterexample: a query error with the non-not-found code
`PGRST301` does NOT surface as `Failed` — `fetch`'s outer catch converts
the thrown error into the absent result, contradicting the claim that the
error is never converted into a NotFound outcome. -/
theorem claimC2_counterexample :
    fetch (QueryResult.err "PGRST301") = FetchOutcome.NotFound ∧
    FetchOutcome.NotFound ≠ FetchOutcome.Failed "PGRST301" := by
  refine ⟨rfl, ?_⟩
  intro h
  exact FetchOutcome.noConfusion h

/-- Claim C2, amended: for every query error other than the not-found
code, the error is thrown inside `fetch` (so decoding is never attempted),
but `fetch`'s own catch-all converts it to the absent result: the caller
sees `NotFound`, never `Failed`. -/
theorem claimC2 (code : String) (hcode : code ≠ "PGRST116") :
    fetchInner (QueryResult.err code) = Except.error code ∧
    fetch (QueryResult.err code) = FetchOutcome.NotFound := by
  constructor
  · simp [fetchInner, hcode]
  · simp [fetch, fetchInner, hcode]

theorem claimC2_witness :
    fetchInner (QueryResult.err "500") = Except.error "500" ∧
    fetch (QueryResult.err "500") = FetchOutcome.NotFound :=
  claimC2 "500" (by decide)

/-- Claim C3: the three retrieval sub-cases — query reports no matching
row (`PGRST116`), a row whose column is null or the empty string, and a
row whose present (truthy) column value the decoder cannot decode — all
produce the identical `NotFound` outcome from `fetch`. -/
theorem claimC3 :
    fetch (QueryResult.err "PGRST116") = FetchOutcome.NotFound ∧
    fetch (QueryResult.row none) = FetchOutcome.NotFound ∧
    fetch (QueryResult.row (some (ColumnValue.str []))) = FetchOutcome.NotFound ∧
    ∀ v, truthy v = true → decodeColumn v = none →
      fetch (QueryResult.row (some v)) = FetchOutcome.NotFound := by
  refine ⟨rfl, rfl, rfl, ?_⟩
  intro v hv hd
  exact fetch_row_absent v hv hd

theorem claimC3_witness :
    fetch (QueryResult.row (some (ColumnValue.other true)))
      = FetchOutcome.NotFound :=
  claimC3.2.2.2 (ColumnValue.other true) rfl rfl

/-- Claim C4: for every byte sequence `b`, a column value holding the
binary-escape-prefixed hex of the base64 text of `b` decodes to the same
bytes as the plain base64 string, namely to `b` itself. -/
theorem claimC4 (b : List Nat) (h : ∀ x ∈ b, x < 256) :
    decodeColumn (ColumnValue.str
        ('\\' :: 'x' :: hexEncode ((base64Encode b).map Char.toNat)))
      = decodeColumn (ColumnValue.str (base64Encode b)) ∧
    decodeColumn (ColumnValue.str (base64Encode b)) = some b := by
  have hasc := base64Encode_ascii b h
  have hcodes : ∀ x ∈ (base64Encode b).map Char.toNat, x < 256 := by
    intro x hx
    rw [List.mem_map] at hx
    obtain ⟨c, hc, rfl⟩ := hx
    have := (hasc c hc).1
    omega
  have hcodes128 : ∀ x ∈ (base64Encode b).map Char.toNat, x < 128 := by
    intro x hx
    rw [List.mem_map] at hx
    obtain ⟨c, hc, rfl⟩ := hx
    exact (hasc c hc).1
  have hsw : startsWithBackslashX
      ('\\' :: 'x' :: hexEncode ((base64Encode b).map Char.toNat)) = true := rfl
  have hstrip : stripBackslashX
      ('\\' :: 'x' :: hexEncode ((base64Encode b).map Char.toNat))
      = hexEncode ((base64Encode b).map Char.toNat) := rfl
  have hdec : decodeColumn (ColumnValue.str
      ('\\' :: 'x' :: hexEncode ((base64Encode b).map Char.toNat)))
      = some b := by
    simp only [decodeColumn, hsw, if_true, hstrip, hex_roundtrip _ hcodes,
      utf8Decode_ascii _ hcodes128,
      map_ofNat_toNat (base64Encode b) (fun c hc => (hasc c hc).2),
      base64_roundtrip b h]
  exact ⟨hdec.trans (decodeColumn_base64Encode b h).symm,
    decodeColumn_base64Encode b h⟩

theorem claimC4_witness :
    decodeColumn (ColumnValue.str
        ('\\' :: 'x' :: hexEncode ((base64Encode [1, 2, 3]).map Char.toNat)))
      = decodeColumn (ColumnValue.str (base64Encode [1, 2, 3])) ∧
    decodeColumn (ColumnValue.str (base64Encode [1, 2, 3])) = some [1, 2, 3] :=
  claimC4 [1, 2, 3] (by decide)

/-- Claim C5 counterexample: the present string `"\\xZZ"` is malformed
(the characters after the escape prefix are not hex digits), yet the
decoder does not degrade it to absence: Node's lenient hex decoder
truncates to the empty byte string, which base64-decodes to the empty
sequence, so `fetch` returns `Found []`, not `NotFound`. -/
theorem claimC5_counterexample :
    decodeColumn (ColumnValue.str ['\\', 'x', 'Z', 'Z']) = some [] ∧
    fetch (QueryResult.row (some (ColumnValue.str ['\\', 'x', 'Z', 'Z'])))
      = FetchOutcome.Found [] ∧
    some ([] : List Nat) ≠ none := by
  have hz : hexDigitVal 'Z' = none := by decide
  have hhex : hexDecodeNode ['Z', 'Z'] = [] := by
    simp [hexDecodeNode, hz]
  have hutf : utf8Decode ([] : List Nat) = [] := by rw [utf8Decode]
  have hdec : decodeColumn (ColumnValue.str ['\\', 'x', 'Z', 'Z']) = some [] := by
    simp only [decodeColumn, startsWithBackslashX, stripBackslashX]
    norm_num [hhex, hutf, base64DecodeNode, decodeSextets]
  refine ⟨hdec, ?_, by simp⟩
  exact fetch_row_found (ColumnValue.str ['\\', 'x', 'Z', 'Z']) (by decide) [] hdec

/-- Claim C5, amended: the Decoder is total on present inputs and never
turns a present value into a fetch failure: a present value either decodes
to bytes (then `fetch` returns them) or yields absence (then `fetch`
returns `NotFound`), and `fetch` never returns `Failed` for a present
value.  Only values of unexpected type degrade to absence; a malformed
string decodes leniently to some (possibly empty) byte sequence. -/
theorem claimC5 (v : ColumnValue) (hv : truthy v = true) :
    (∀ cause, fetch (QueryResult.row (some v)) ≠ FetchOutcome.Failed cause) ∧
    (decodeColumn v = none →
      fetch (QueryResult.row (some v)) = FetchOutcome.NotFound) ∧
    (∀ b, decodeColumn v = some b →
      fetch (QueryResult.row (some v)) = FetchOutcome.Found b) := by
  refine ⟨?_, fetch_row_absent v hv, fetch_row_found v hv⟩
  intro cause h
  rcases hd : decodeColumn v with _ | b
  · rw [fetch_row_absent v hv hd] at h
    exact FetchOutcome.noConfusion h
  · rw [fetch_row_found v hv b hd] at h
    exact FetchOutcome.noConfusion h

theorem claimC5_witness :
    fetch (QueryResult.row (some (ColumnValue.buf [5])))
      = FetchOutcome.Found [5] :=
  (claimC5 (ColumnValue.buf [5]) rfl).2.2 [5] rfl

/-- Claim C6: for every reported upsert error, `store` rethrows it from
its own catch, so the failure with its cause propagates to the caller and
success is never reported; a clean upsert returns normally. -/
theorem claimC6 (e : String) :
    storeRun (some e) = Except.error e ∧
    storeRun (some e) ≠ Except.ok () ∧
    storeRun none = Except.ok () := by
  refine ⟨rfl, ?_, rfl⟩
  intro h
  exact Except.noConfusion h

theorem claimC6_witness :
    storeRun (some "connection reset") = Except.error "connection reset" :=
  (claimC6 "connection reset").1

/-- Claim C7 counterexample: with `b2 = []` the claim fails — storing
`[1]` then storing `[]` and fetching yields `NotFound`, not `Found []`,
because the empty snapshot is stored as the empty string, which fetch
classifies as absent. -/
theorem claimC7_counterexample :
    fetchFromTable (storeToTable (storeToTable [] "d" [1]) "d" []) "d"
      = FetchOutcome.NotFound ∧
    FetchOutcome.NotFound ≠ FetchOutcome.Found [] := by
  refine ⟨by decide, ?_⟩
  intro h
  exact FetchOutcome.noConfusion h

/-- Claim C7, amended: for every table state, identifier and byte
sequences `b1`, `b2` with `b2` nonempty, storing `b1` then `b2` under the
same identifier and fetching yields exactly `Found b2` — the second store
wholesale replaces the first and nothing is merged.  (For empty `b2` the
fetch yields `NotFound`, as the counterexample shows.) -/
theorem claimC7 (t : Table) (id : String) (b1 b2 : List Nat)
    (h2 : ∀ x ∈ b2, x < 256) (hne : b2 ≠ []) :
    fetchFromTable (storeToTable (storeToTable t id b1) id b2) id
      = FetchOutcome.Found b2 := by
  rw [fetchFromTable, storeToTable, storeToTable, queryTable_upsert]
  exact fetch_row_found _ (truthy_base64Encode b2 hne) _
    (decodeColumn_base64Encode b2 h2)

theorem claimC7_witness :
    fetchFromTable
        (storeToTable (storeToTable [] "ticket-42" [9]) "ticket-42"
          [0, 1, 2, 253, 254, 255]) "ticket-42"
      = FetchOutcome.Found [0, 1, 2, 253, 254, 255] :=
  claimC7 [] "ticket-42" [9] [0, 1, 2, 253, 254, 255] (by decide) (by decide)

/-- Claim C8: every reachable table holds at most one row per document
identifier, every store preserves that invariant, a store leaves exactly
one row for its identifier, and repeating the same store changes nothing
(replace-on-conflict, not append). -/
theorem claimC8 (t : Table) (ht : Reachable t) (id : String) (b : List Nat) :
    (∀ i, countKey t i ≤ 1) ∧
    (∀ i, countKey (storeToTable t id b) i ≤ 1) ∧
    countKey (storeToTable t id b) id = 1 ∧
    storeToTable (storeToTable t id b) id b = storeToTable t id b := by
  have hmo := reachable_at_most_one t ht
  refine ⟨hmo, ?_, ?_, ?_⟩
  · exact reachable_at_most_one _ (Reachable.step id (base64Encode b) ht)
  · exact countKey_upsert_self t id _ (hmo id)
  · exact upsert_idem t id (base64Encode b)

theorem claimC8_witness :
    countKey (storeToTable (upsert [] "a" ['Q']) "a" [7]) "a" = 1 :=
  (claimC8 (upsert [] "a" ['Q']) (Reachable.step "a" ['Q'] Reachable.nil)
    "a" [7]).2.2.1

/-- Claim C9 counterexample: a one-character string whose code point is
256 reaches the one-byte-per-character fallback, but the `Uint8Array`
write wraps the code point modulo 256: the decoder yields byte `0`, not
the code point `256`, so the byte does not equal the code point. -/
theorem claimC9_counterexample :
    startsWithBackslashX [Char.ofNat 256] = false ∧
    isBase64 [Char.ofNat 256] = false ∧
    decodeColumn (ColumnValue.str [Char.ofNat 256]) = some [0] ∧
    (Char.ofNat 256).toNat = 256 ∧ (0 : Nat) ≠ 256 := by decide

/-- Claim C9, amended: for every string that neither starts with the
escape marker nor matches the base64 shape, the decoder returns one byte
per character, each byte being the character's code point reduced modulo
256 (equal to the code point whenever it is below 256). -/
theorem claimC9 (s : List Char) (h1 : startsWithBackslashX s = false)
    (h2 : isBase64 s = false) :
    decodeColumn (ColumnValue.str s) = some (s.map (fun c => c.toNat % 256)) ∧
    (s.map (fun c => c.toNat % 256)).length = s.length ∧
    ∀ i : Fin s.length,
      (s.map (fun c => c.toNat % 256)).getD i.val 0 = (s.get i).toNat % 256 := by
  refine ⟨?_, by simp, ?_⟩
  · simp [decodeColumn, h1, h2]
  · intro i
    have hlt : i.val < (s.map (fun c => c.toNat % 256)).length := by
      simp [i.isLt]
    rw [List.getD_eq_getElem _ _ hlt]
    simp [List.getElem_map, List.get_eq_getElem]

theorem claimC9_witness :
    decodeColumn (ColumnValue.str ['!', '!'])
      = some (['!', '!'].map (fun c => c.toNat % 256)) :=
  (claimC9 ['!', '!'] (by decide) (by decide)).1

/-- Claim C10: the store path encodes the empty snapshot as the empty
string, and fetching after storing an empty snapshot yields `NotFound` —
the empty-string column is classified as absent before any decode branch
runs — just like fetching an identifier that was never stored. -/
theorem claimC10 :
    base64Encode [] = [] ∧
    (∀ (t : Table) (id : String),
      fetchFromTable (storeToTable t id []) id = FetchOutcome.NotFound) ∧
    fetchFromTable [] "ticket-missing" = FetchOutcome.NotFound := by
  refine ⟨rfl, ?_, rfl⟩
  intro t id
  rw [fetchFromTable, storeToTable, queryTable_upsert]
  exact fetch_row_falsy _ rfl

theorem claimC10_witness :
    fetchFromTable (storeToTable [("x", ['A'])] "doc" []) "doc"
      = FetchOutcome.NotFound :=
  claimC10.2.1 [("x", ['A'])] "doc"

end HocuspocusSupabase
